import Mathlib

/-!
Shallow embedding of `src/lib/versionmanager.js` (npm-check-updates).

Strings are modelled as Lean `String` / `List Char`; JavaScript number
coercions (`isNaN`, `parseInt`) are modelled explicitly on characters and
character lists.  The external `semver` library (validRange / satisfies /
ltr) is not part of this repository; where a claim depends on it, it is
either taken as a parameter of the embedded function or modelled from the
specification's data model (see the doc comments marked
"Modelled from the spec").
-/

set_option autoImplicit false

namespace VersionManager

/-- Characters the source treats as a "wild" version digit when scanning a
declaration character by character (`isWildDigit(declaration[i])` with a
single-character string). -/
def isWildChar (c : Char) : Bool := c == 'x' || c == '*'

/-- JavaScript string-to-number whitespace (`StrWhiteSpace`): these single
characters coerce to `0` under `Number(...)`, hence `isNaN` is `false` on
them; they are also the characters matched by the regex class `\s`
(restricted here to the common BMP set). -/
def isJsWhitespace (c : Char) : Bool :=
  c == ' ' || c == '\t' || c == '\n' || c == '\r' ||
  c == '\x0b' || c == '\x0c' || c == ' '

/-- JavaScript `isNaN(c)` for a single-character string `c`: the coercion
`Number(c)` yields `NaN` exactly when `c` is neither an ASCII digit nor a
whitespace character (whitespace trims to the empty string, which coerces
to `0`). -/
def charIsNaN (c : Char) : Bool := !c.isDigit && !isJsWhitespace c

/-- Loop condition of `getVersionConstraints`:
`(isNaN(declaration[i]) || declaration[i] === ' ') && !isWildDigit(declaration[i])`. -/
def constraintChar (c : Char) : Bool := (charIsNaN c || c == ' ') && !isWildChar c

/-- Character-list version of `getVersionConstraints`: accumulate characters
from the front while the loop condition holds, stop at the first failure
(the `break`). -/
def getVersionConstraintsL : List Char → List Char
  | [] => []
  | c :: cs => if constraintChar c then c :: getVersionConstraintsL cs else []

/-- `getVersionConstraints(declaration)` from the source. -/
def getVersionConstraints (declaration : String) : String :=
  String.mk (getVersionConstraintsL declaration.toList)

/-- The body of a declaration after the constraint prefix is removed:
`declaration.substr(getVersionConstraints(declaration).length, declaration.length)`. -/
def strippedL (declaration : List Char) : List Char :=
  declaration.drop (getVersionConstraintsL declaration).length

/-- JavaScript `String.prototype.split('.')`: splitting the empty string
yields `[""]`; separators at the ends produce empty components. -/
def splitOnDot : List Char → List (List Char)
  | [] => [[]]
  | c :: cs =>
    if c = '.' then [] :: splitOnDot cs
    else
      match splitOnDot cs with
      | [] => [[c]]
      | t :: ts => (c :: t) :: ts

/-- JavaScript `Array.prototype.join('.')`. -/
def joinDot : List (List Char) → List Char
  | [] => []
  | [x] => x
  | x :: xs => x ++ '.' :: joinDot xs

/-- A whole component token is "wild" when it is exactly `x` or `*`
(`isWildDigit(d)` applied to a split component). -/
def isWildDigitL (d : List Char) : Bool := d == ['x'] || d == ['*']

/-- Value of a list of decimal digit characters, most significant first. -/
def digitsVal (s : List Char) : Nat :=
  s.foldl (fun a c => 10 * a + (c.toNat - 48)) 0

/-- JavaScript `parseInt(s, 10)`: skip leading whitespace, read an optional
sign, then the longest run of decimal digits; `NaN` (here `none`) when that
run is empty.  Trailing garbage after the digits is ignored. -/
def jsParseInt (s : List Char) : Option Int :=
  let s1 := s.dropWhile isJsWhitespace
  match s1 with
  | '-' :: rest =>
    let ds := rest.takeWhile Char.isDigit
    if ds = [] then none else some (-(digitsVal ds : Int))
  | '+' :: rest =>
    let ds := rest.takeWhile Char.isDigit
    if ds = [] then none else some ((digitsVal ds : Int))
  | _ =>
    let ds := s1.takeWhile Char.isDigit
    if ds = [] then none else some ((digitsVal ds : Int))

/-- JavaScript `parseInt(d1,10) > parseInt(d2,10)`: any comparison with
`NaN` is `false`. -/
def optIntGt : Option Int → Option Int → Bool
  | some a, some b => a > b
  | _, _ => false

/-- Pointwise "both parse and the first is numerically at most the second"
(used to state claim hypotheses about numeric components). -/
def optIntLe : Option Int → Option Int → Bool
  | some a, some b => a ≤ b
  | _, _ => false

/-- `versionDigitComparison(d1, d2)` from the source, on character lists. -/
def versionDigitComparisonL (d1 d2 : List Char) : Int :=
  if optIntGt (jsParseInt d1) (jsParseInt d2) then 1
  else if d1 == d2 || isWildDigitL d1 || isWildDigitL d2 then 0
  else -1

/-- `versionDigitComparison(d1, d2)` from the source. -/
def versionDigitComparison (d1 d2 : String) : Int :=
  versionDigitComparisonL d1.toList d2.toList

/-- The component walk of `upgradeDependencyDeclaration`: the `for` loop over
`currentComponents` with `newDigit = latestComponents[i]`, the `break` when
the target runs out, the wildcard pass-through, and the
`versionBumped`-guarded pushes. -/
def upgradeLoop : List (List Char) → List (List Char) → Bool → List (List Char)
  | [], _, _ => []
  | _ :: _, [], _ => []
  | c :: cs, n :: ns, bumped =>
    if isWildDigitL c then c :: upgradeLoop cs ns bumped
    else
      let comparison := versionDigitComparisonL c n
      if comparison < 0 then n :: upgradeLoop cs ns true
      else if comparison > 0 && !bumped then n :: upgradeLoop cs ns bumped
      else if bumped then n :: upgradeLoop cs ns bumped
      else c :: upgradeLoop cs ns bumped

/-- `upgradeDependencyDeclaration(declaration, latestVersion)` on character
lists: keep the declaration when the latest version is falsy (empty),
extract the constraint prefix, return the prefix alone when the first body
component is empty (`currentComponents[0] == ''`), otherwise run the
component walk and rejoin. -/
def upgradeDeclL (declaration latestVersion : List Char) : List Char :=
  if latestVersion = [] then declaration
  else
    let pfx := getVersionConstraintsL declaration
    let currentComponents := splitOnDot (strippedL declaration)
    if currentComponents.head? = some [] then pfx
    else pfx ++ joinDot (upgradeLoop currentComponents (splitOnDot latestVersion) false)

/-- `upgradeDependencyDeclaration(declaration, latestVersion)` from the source. -/
def upgradeDependencyDeclaration (declaration latestVersion : String) : String :=
  String.mk (upgradeDeclL declaration.toList latestVersion.toList)

/-- `isUpgradeable(current, latest)` from the source, parameterised over the
external `semver` library: `vr` plays `semver.validRange` (truthiness of its
result), `sat` plays `semver.satisfies` and `lt` plays `semver.ltr`, both
applied as in the source to `(latest, unconstrainedCurrent)`. -/
def isUpgradeable (vr : String → Bool) (sat lt : String → String → Bool)
    (current latest : String) : Bool :=
  if vr current = false then false
  else
    let unconstrainedCurrent := String.mk (strippedL current.toList)
    if unconstrainedCurrent = "" then false
    else
      let isLatest := sat latest unconstrainedCurrent
      let isBeyond := lt latest unconstrainedCurrent
      !isLatest && !isBeyond

/-- A numeric component token: a non-empty run of decimal digits. -/
def isNumericToken (s : List Char) : Bool := !s.isEmpty && s.all Char.isDigit

/-- A well-formed target version per the spec's data model (section 3):
a dotted sequence of integer components only, hence non-empty. -/
def wfTargetL (t : List Char) : Bool := (splitOnDot t).all isNumericToken

/-- Modelled from the spec: `semver.validRange` is external to this
repository.  Per the spec's data model (section 3) a declaration is valid
when, after the constraint prefix, its body is a dotted sequence of
components each of which is an integer literal or a wildcard marker. -/
def specValidRange (current : String) : Bool :=
  (splitOnDot (strippedL current.toList)).all
    (fun c => isNumericToken c || isWildDigitL c)

/-- Modelled from the spec: `semver.satisfies(version, range)` is external to
this repository.  For a range that is a dotted numeric/wildcard body
(section 3), the version satisfies it when every range component is a
wildcard or is numerically equal to the version component at the same
position; range positions beyond the version's length are satisfied only by
wildcards, version positions beyond the range's length are unconstrained. -/
def specSatisfiesAux : List (List Char) → List (List Char) → Bool
  | [], _ => true
  | r :: rs, [] => isWildDigitL r && specSatisfiesAux rs []
  | r :: rs, v :: vs =>
    (isWildDigitL r ||
      (isNumericToken r && isNumericToken v && digitsVal r == digitsVal v)) &&
    specSatisfiesAux rs vs

/-- Modelled from the spec: see `specSatisfiesAux`. -/
def specSatisfies (version range : String) : Bool :=
  specSatisfiesAux (splitOnDot range.toList) (splitOnDot version.toList)

/-- Lower bound implied by a range body: wildcards count as `0`. -/
def lowerBoundNums (rs : List (List Char)) : List Nat :=
  rs.map (fun r => if isWildDigitL r then 0 else digitsVal r)

/-- Lexicographic strict order on component values, padding the shorter list
with zeros (an all-zero left remainder is below a right remainder exactly
when the latter has a positive entry). -/
def ltLex : List Nat → List Nat → Bool
  | [], bs => bs.any (fun b => decide (0 < b))
  | a :: as, [] => a == 0 && ltLex as []
  | a :: as, b :: bs => decide (a < b) || (a == b && ltLex as bs)

/-- Modelled from the spec: `semver.ltr(version, range)` is external to this
repository.  Per the spec (section 4.4) it decides whether the version is
strictly less than the lower bound implied by the range. -/
def specLtr (version range : String) : Bool :=
  ltLex ((splitOnDot version.toList).map digitsVal)
        (lowerBoundNums (splitOnDot range.toList))

/-- `isUpgradeable` instantiated with the spec-modelled `semver` operations. -/
def specIsUpgradeable : String → String → Bool :=
  isUpgradeable specValidRange specSatisfies specLtr

/-- `upgradeDependencies(currentDependencies, latestVersions)` from the
source, on association lists: pair every current dependency with its latest
version, keep the upgradeable ones, and map them to their upgraded
declarations.  Modelled from the spec for the external parts: the `semver`
operations inside the predicate are the spec-modelled ones, and a name
absent from `latestVersions` (an `undefined` latest in the source) is
classified not upgradeable, per section 4.5 ("names absent from
`latestVersions` ... are omitted entirely"). -/
def upgradeDependencies (currentDependencies latestVersions : List (String × String)) :
    List (String × String) :=
  (currentDependencies.filter (fun p =>
      match List.lookup p.1 latestVersions with
      | some latest => specIsUpgradeable p.2 latest
      | none => false)).map (fun p =>
      (p.1,
        match List.lookup p.1 latestVersions with
        | some latest => upgradeDependencyDeclaration p.2 latest
        | none => p.2))

/-- The JavaScript regex metacharacter `.` outside a character class: it
matches any single character except a line terminator. -/
def dotMatches (c : Char) : Bool :=
  !(c == '\n' || c == '\r' || c == '\u2028' || c == '\u2029')

/-- Matching of the dependency name, which the source interpolates into the
regex WITHOUT escaping (`'"' + dependency + '"\s*:\s*…'`): a `.` in the name
is therefore the regex wildcard and matches any single non-line-terminator
character; every other character matches itself.  This is exact for names
whose characters include no regex metacharacter other than `.` — which
holds for npm package names, whose remaining permitted punctuation
(`-`, `_`, `~`, `@`, `/`) is not special in a regex.  Each pattern
character consumes exactly one text character, so the name match is
fixed-length and needs no backtracking. -/
def nameMatches : List Char → List Char → Bool
  | [], [] => true
  | [], _ :: _ => false
  | _ :: _, [] => false
  | p :: ps, c :: cs =>
    (if p = '.' then dotMatches c else p == c) && nameMatches ps cs

/-- Consume one expected literal character from the front of the text. -/
def expectChar (c : Char) : List Char → Option (List Char)
  | [] => none
  | x :: xs => if x = c then some xs else none

/-- Attempt to match the regex
`"<name>"\s*:\s*"<escaped old>"` at the head of `s`; on success return the
remaining suffix.  The old declaration went through `escapeRegexp` in the
source and so matches literally; the name is matched as unescaped regex
source via `nameMatches`.  Both `\s*` runs are greedy, and since neither
`:` nor `"` is a whitespace character the greedy match never backtracks, so
taking the longest whitespace run is exact. -/
def matchPat (name old : List Char) (s : List Char) : Option (List Char) :=
  match expectChar '"' s with
  | none => none
  | some s0 =>
    if nameMatches name (s0.take name.length) then
      match expectChar '"' (s0.drop name.length) with
      | none => none
      | some s1 =>
        match expectChar ':' (s1.dropWhile isJsWhitespace) with
        | none => none
        | some s3 =>
          if (s3.dropWhile isJsWhitespace).take ('"' :: old ++ ['"']).length =
              '"' :: old ++ ['"'] then
            some ((s3.dropWhile isJsWhitespace).drop ('"' :: old ++ ['"']).length)
          else none
    else none

/-- Does the pattern match at any position of `s`? -/
def hasMatch (name old : List Char) : List Char → Bool
  | [] => (matchPat name old []).isSome
  | c :: cs => (matchPat name old (c :: cs)).isSome || hasMatch name old cs

/-- Global left-to-right, non-overlapping regex replacement, fuelled by the
length of the scanned text (each step consumes at least one character, so
`fuel = s.length` always suffices). -/
def replaceAllAux (name old repl : List Char) : Nat → List Char → List Char
  | 0, s => s
  | _ + 1, [] => []
  | fuel + 1, c :: cs =>
    match matchPat name old (c :: cs) with
    | some rest => repl ++ replaceAllAux name old repl fuel rest
    | none => c :: replaceAllAux name old repl fuel cs

/-- `data.replace(regExp, replacement)` with the global flag, for the pattern
built by `updatePackageData`. -/
def replaceAllL (name old repl s : List Char) : List Char :=
  replaceAllAux name old repl s.length s

/-- The replacement text of one entry:
`'"' + dependency + '": ' + '"' + newDependencies[dependency] + '"'` — the
name and new declaration are written literally, with the separator
normalised to colon-space. -/
def entryReplacement (name newDecl : List Char) : List Char :=
  '"' :: name ++ '"' :: ':' :: ' ' :: '"' :: newDecl ++ ['"']

/-- `oldDependencies[dependency]` as it enters the pattern: a name missing
from `oldDependencies` contributes the JavaScript string `undefined`, as in
the source (`undefined + '"'` stringifies). -/
def entryOld (oldDependencies : List (String × String)) (name : String) : String :=
  match List.lookup name oldDependencies with
  | some o => o
  | none => "undefined"

/-- One iteration of the `for (var dependency in newDependencies)` loop:
`data.replace(regExp, …)` for this entry's pattern and replacement. -/
def applyEntry (oldDependencies : List (String × String)) (d : String)
    (p : String × String) : String :=
  String.mk (replaceAllL p.1.toList (entryOld oldDependencies p.1).toList
    (entryReplacement p.1.toList p.2.toList) d.toList)

/-- `updatePackageData(data, oldDependencies, newDependencies)` from the
source: for every entry of `newDependencies` in order, globally replace
`"<name>"\s*:\s*"<old>"` — the old declaration escaped, hence literal, the
name unescaped, hence matched as regex source — with `"<name>": "<new>"`. -/
def updatePackageData (data : String)
    (oldDependencies newDependencies : List (String × String)) : String :=
  newDependencies.foldl (applyEntry oldDependencies) data

/-- Specification-side characterization of one step of the component walk
for well-formed (fully numeric) targets: a wildcard component is kept,
every other component snaps to the target's component.  Proved equivalent
to `upgradeLoop` in `upgradeLoop_eq_zipWith`. -/
def bumpComponent (c t : List Char) : List Char := if isWildDigitL c then c else t

/-! ### Helper lemmas -/

theorem mk_toList (s : String) : String.mk s.toList = s := rfl

theorem toList_mk (l : List Char) : (String.mk l).toList = l := rfl

theorem mk_eq_empty_iff (l : List Char) : String.mk l = "" ↔ l = [] := by
  constructor
  · intro h
    exact congrArg String.toList h
  · intro h
    rw [h]

theorem string_ne_iff_toList_ne (s t : String) : s ≠ t ↔ s.toList ≠ t.toList := by
  constructor
  · intro h hl
    exact h (by cases s; cases t; exact congrArg String.mk hl)
  · intro h hs
    exact h (congrArg String.toList hs)

theorem gvcL_eq_takeWhile (l : List Char) :
    getVersionConstraintsL l = l.takeWhile constraintChar := by
  induction l with
  | nil => rfl
  | cons c cs ih =>
    simp only [getVersionConstraintsL, List.takeWhile]
    cases h : constraintChar c <;> simp [h, ih]

theorem drop_length_takeWhile (p : Char → Bool) (l : List Char) :
    l.drop (l.takeWhile p).length = l.dropWhile p := by
  induction l with
  | nil => rfl
  | cons c cs ih =>
    simp only [List.takeWhile, List.dropWhile]
    cases h : p c
    · simp
    · simpa using ih

theorem strippedL_eq_dropWhile (l : List Char) :
    strippedL l = l.dropWhile constraintChar := by
  rw [strippedL, gvcL_eq_takeWhile, drop_length_takeWhile]

theorem takeWhile_append_dropWhile' (p : Char → Bool) (l : List Char) :
    l.takeWhile p ++ l.dropWhile p = l := List.takeWhile_append_dropWhile p l

theorem takeWhile_eq_self_of_all (p : Char → Bool) (l : List Char)
    (h : ∀ c ∈ l, p c = true) : l.takeWhile p = l := by
  induction l with
  | nil => rfl
  | cons c cs ih =>
    simp only [List.takeWhile, h c (List.mem_cons_self c cs)]
    exact congrArg (c :: ·) (ih fun x hx => h x (List.mem_cons_of_mem c hx))

theorem dropWhile_eq_nil_of_all (p : Char → Bool) (l : List Char)
    (h : ∀ c ∈ l, p c = true) : l.dropWhile p = [] := by
  induction l with
  | nil => rfl
  | cons c cs ih =>
    simp only [List.dropWhile, h c (List.mem_cons_self c cs)]
    exact ih fun x hx => h x (List.mem_cons_of_mem c hx)

theorem mem_takeWhile_satisfies (p : Char → Bool) (l : List Char) :
    ∀ c ∈ l.takeWhile p, p c = true := by
  induction l with
  | nil => intro c hc; simp [List.takeWhile] at hc
  | cons a as ih =>
    intro c hc
    simp only [List.takeWhile] at hc
    cases h : p a
    · rw [h] at hc; simp at hc
    · rw [h] at hc
      rcases List.mem_cons.1 hc with rfl | hc'
      · exact h
      · exact ih c hc'

theorem takeWhile_append_of_all (p : Char → Bool) (a b : List Char)
    (h : ∀ c ∈ a, p c = true) : (a ++ b).takeWhile p = a ++ b.takeWhile p := by
  induction a with
  | nil => rfl
  | cons x xs ih =>
    simp only [List.cons_append, List.takeWhile, h x (List.mem_cons_self x xs)]
    exact congrArg (x :: ·) (ih fun c hc => h c (List.mem_cons_of_mem x hc))

theorem dropWhile_append_of_all (p : Char → Bool) (a b : List Char)
    (h : ∀ c ∈ a, p c = true) : (a ++ b).dropWhile p = b.dropWhile p := by
  induction a with
  | nil => rfl
  | cons x xs ih =>
    simp only [List.cons_append, List.dropWhile, h x (List.mem_cons_self x xs)]
    exact ih fun c hc => h c (List.mem_cons_of_mem x hc)

theorem splitOnDot_ne_nil (l : List Char) : splitOnDot l ≠ [] := by
  induction l with
  | nil => simp [splitOnDot]
  | cons c cs ih =>
    simp only [splitOnDot]
    by_cases h : c = '.'
    · simp [h]
    · rw [if_neg h]
      cases hs : splitOnDot cs <;> simp

theorem dot_not_mem_splitOnDot (l : List Char) :
    ∀ p ∈ splitOnDot l, '.' ∉ p := by
  induction l with
  | nil => intro p hp; simp [splitOnDot] at hp; simp [hp]
  | cons c cs ih =>
    intro p hp
    simp only [splitOnDot] at hp
    by_cases h : c = '.'
    · rw [if_pos h] at hp
      rcases List.mem_cons.1 hp with rfl | hp'
      · simp
      · exact ih p hp'
    · rw [if_neg h] at hp
      cases hs : splitOnDot cs with
      | nil => exact absurd hs (splitOnDot_ne_nil cs)
      | cons t ts =>
        rw [hs] at hp
        rcases List.mem_cons.1 hp with rfl | hp'
        · intro hdot
          rcases List.mem_cons.1 hdot with hd | hd
          · exact h hd.symm
          · exact ih t (hs ▸ List.mem_cons_self t ts) hd
        · exact ih p (hs ▸ List.mem_cons_of_mem t hp')

theorem joinDot_cons_cons (x : List Char) (y : List Char) (ys : List (List Char)) :
    joinDot (x :: y :: ys) = x ++ '.' :: joinDot (y :: ys) := rfl

theorem joinDot_splitOnDot (l : List Char) : joinDot (splitOnDot l) = l := by
  induction l with
  | nil => rfl
  | cons c cs ih =>
    simp only [splitOnDot]
    by_cases h : c = '.'
    · rw [if_pos h]
      cases hs : splitOnDot cs with
      | nil => exact absurd hs (splitOnDot_ne_nil cs)
      | cons t ts =>
        rw [joinDot_cons_cons, List.nil_append, ← hs, ih, h]
    · rw [if_neg h]
      cases hs : splitOnDot cs with
      | nil => exact absurd hs (splitOnDot_ne_nil cs)
      | cons t ts =>
        cases ts with
        | nil =>
          have : joinDot [t] = cs := by rw [← hs]; exact ih
          simp only [joinDot] at this ⊢
          rw [this]
        | cons u us =>
          rw [joinDot_cons_cons]
          have : joinDot (t :: u :: us) = cs := by rw [← hs]; exact ih
          rw [joinDot_cons_cons] at this
          simp only [List.cons_append, List.append_assoc] at this ⊢
          rw [this]

theorem splitOnDot_no_dot (p : List Char) (h : '.' ∉ p) : splitOnDot p = [p] := by
  induction p with
  | nil => rfl
  | cons c cs ih =>
    simp only [splitOnDot]
    have hc : c ≠ '.' := fun hc => h (hc ▸ List.mem_cons_self c cs)
    rw [if_neg hc, ih (fun hd => h (List.mem_cons_of_mem c hd))]

theorem splitOnDot_append_dot (p l : List Char) (h : '.' ∉ p) :
    splitOnDot (p ++ '.' :: l) = p :: splitOnDot l := by
  induction p with
  | nil => simp [splitOnDot]
  | cons c cs ih =>
    have hc : c ≠ '.' := fun hc => h (hc ▸ List.mem_cons_self c cs)
    simp only [List.cons_append, splitOnDot, if_neg hc]
    have hih := ih (fun hd => h (List.mem_cons_of_mem c hd))
    simp only [List.append_eq]
    rw [hih]

theorem splitOnDot_joinDot (ps : List (List Char)) (hne : ps ≠ [])
    (hdot : ∀ p ∈ ps, '.' ∉ p) : splitOnDot (joinDot ps) = ps := by
  induction ps with
  | nil => exact absurd rfl hne
  | cons p qs ih =>
    cases qs with
    | nil =>
      simp only [joinDot]
      exact splitOnDot_no_dot p (hdot p (List.mem_cons_self p []))
    | cons q rs =>
      rw [joinDot_cons_cons,
        splitOnDot_append_dot p _ (hdot p (List.mem_cons_self p _)),
        ih (by simp) (fun x hx => hdot x (List.mem_cons_of_mem p hx))]

theorem jsParseInt_wild (d : List Char) (h : isWildDigitL d = true) :
    jsParseInt d = none := by
  simp only [isWildDigitL, Bool.or_eq_true, beq_iff_eq] at h
  rcases h with rfl | rfl <;> rfl

theorem jsParseInt_some_not_wild (d : List Char) (a : Int)
    (h : jsParseInt d = some a) : isWildDigitL d = false := by
  by_contra hw
  rw [jsParseInt_wild d (by simpa using hw)] at h
  exact Option.noConfusion h

theorem jsParseInt_nil : jsParseInt [] = none := rfl

theorem optIntGt_self (x : Option Int) : optIntGt x x = false := by
  cases x with
  | none => rfl
  | some a => simp [optIntGt]

theorem numeric_mem_digit (t : List Char) (h : isNumericToken t = true) :
    ∀ c ∈ t, Char.isDigit c = true := by
  intro c hc
  have h2 := h
  simp only [isNumericToken, Bool.and_eq_true, List.all_eq_true] at h2
  exact h2.2 c hc

theorem numeric_ne_nil (t : List Char) (h : isNumericToken t = true) : t ≠ [] := by
  intro hnil
  rw [hnil] at h
  simp [isNumericToken] at h

theorem isNumericToken_not_wild (t : List Char) (h : isNumericToken t = true) :
    isWildDigitL t = false := by
  cases t with
  | nil => simp [isNumericToken] at h
  | cons c cs =>
    have hc : Char.isDigit c = true :=
      numeric_mem_digit _ h c (List.mem_cons_self c cs)
    simp only [isWildDigitL]
    cases cs with
    | nil =>
      have hx : c ≠ 'x' := fun h' => by subst h'; exact absurd hc (by decide)
      have hs : c ≠ '*' := fun h' => by subst h'; exact absurd hc (by decide)
      simp [hx, hs]
    | cons d ds => simp

theorem digit_constraintChar_false (c : Char) (h : Char.isDigit c = true) :
    constraintChar c = false := by
  have hsp : (c == ' ') = false := by
    cases hc : c == ' '
    · rfl
    · exact absurd (beq_iff_eq.1 hc ▸ h) (by decide)
  simp [constraintChar, charIsNaN, h, hsp]

theorem wild_constraintChar_false (c : Char) (h : isWildChar c = true) :
    constraintChar c = false := by
  simp [constraintChar, h]

theorem upgradeLoop_length (cs : List (List Char)) :
    ∀ (ts : List (List Char)) (b : Bool),
    (upgradeLoop cs ts b).length = min cs.length ts.length := by
  induction cs with
  | nil => intro ts b; simp [upgradeLoop]
  | cons c cs ih =>
    intro ts b
    cases ts with
    | nil => simp [upgradeLoop]
    | cons n ns =>
      simp only [upgradeLoop]
      split_ifs <;> simp [ih] <;> omega

theorem upgradeLoop_choice (cs : List (List Char)) :
    ∀ (ts : List (List Char)) (b : Bool) (i : Nat),
    (upgradeLoop cs ts b).get? i = cs.get? i ∨
    (upgradeLoop cs ts b).get? i = ts.get? i := by
  induction cs with
  | nil => intro ts b i; left; simp [upgradeLoop]
  | cons c cs ih =>
    intro ts b i
    cases ts with
    | nil => right; simp [upgradeLoop]
    | cons n ns =>
      cases i with
      | zero =>
        simp only [upgradeLoop]
        split_ifs <;> simp
      | succ i =>
        simp only [upgradeLoop]
        split_ifs <;> simpa using ih ns _ i

theorem upgradeLoop_wild (cs : List (List Char)) :
    ∀ (ts : List (List Char)) (b : Bool) (i : Nat) (w : List Char),
    i < ts.length → cs.get? i = some w → isWildDigitL w = true →
    (upgradeLoop cs ts b).get? i = some w := by
  induction cs with
  | nil => intro ts b i w _ hc _; simp at hc
  | cons c cs ih =>
    intro ts b i w hi hcw hw
    cases ts with
    | nil => simp at hi
    | cons n ns =>
      cases i with
      | zero =>
        have hc : c = w := by simpa using hcw
        subst hc
        simp [upgradeLoop, hw]
      | succ i =>
        have hi' : i < ns.length := by simpa using hi
        have hcw' : cs.get? i = some w := by simpa using hcw
        simp only [upgradeLoop]
        split_ifs <;> simpa using ih ns _ i w hi' hcw' hw

theorem upgradeLoop_eq_zipWith (cs : List (List Char)) :
    ∀ (ts : List (List Char)) (b : Bool),
    (∀ t ∈ ts, isNumericToken t = true) →
    upgradeLoop cs ts b = List.zipWith bumpComponent cs ts := by
  induction cs with
  | nil => intro ts b _; simp [upgradeLoop]
  | cons c cs ih =>
    intro ts b hts
    cases ts with
    | nil => simp [upgradeLoop]
    | cons n ns =>
      have hn : isNumericToken n = true := hts n (List.mem_cons_self n ns)
      have hns : ∀ t ∈ ns, isNumericToken t = true :=
        fun t ht => hts t (List.mem_cons_of_mem n ht)
      have hnw : isWildDigitL n = false := isNumericToken_not_wild n hn
      by_cases hw : isWildDigitL c = true
      · simp [upgradeLoop, hw, bumpComponent, ih ns b hns]
      · have hwf : isWildDigitL c = false := by simpa using hw
        by_cases hct : c = n
        · subst hct
          have hcmp : versionDigitComparisonL c c = 0 := by
            simp [versionDigitComparisonL, optIntGt_self]
          cases b with
          | false => simp [upgradeLoop, hwf, hcmp, bumpComponent, ih ns false hns]
          | true => simp [upgradeLoop, hwf, hcmp, bumpComponent, ih ns true hns]
        · have hbeq : (c == n) = false := by simp [hct]
          cases hgt : optIntGt (jsParseInt c) (jsParseInt n) with
          | false =>
            have hcmp : versionDigitComparisonL c n = -1 := by
              simp [versionDigitComparisonL, hgt, hbeq, hwf, hnw]
            simp [upgradeLoop, hwf, hcmp, bumpComponent, ih ns true hns]
          | true =>
            have hcmp : versionDigitComparisonL c n = 1 := by
              simp [versionDigitComparisonL, hgt]
            cases b with
            | false => simp [upgradeLoop, hwf, hcmp, bumpComponent, ih ns false hns]
            | true => simp [upgradeLoop, hwf, hcmp, bumpComponent, ih ns true hns]

theorem upgradeLoop_take (cs : List (List Char)) :
    ∀ (ts : List (List Char)) (b : Bool),
    (∀ p ∈ cs.zip ts, optIntLe (jsParseInt p.1) (jsParseInt p.2) = true) →
    upgradeLoop cs ts b = ts.take (min cs.length ts.length) := by
  induction cs with
  | nil => intro ts b _; simp [upgradeLoop]
  | cons c cs ih =>
    intro ts b hle
    cases ts with
    | nil => simp [upgradeLoop]
    | cons n ns =>
      have h0 : optIntLe (jsParseInt c) (jsParseInt n) = true :=
        hle (c, n) (by simp)
      obtain ⟨a, ha⟩ : ∃ a, jsParseInt c = some a := by
        cases hc : jsParseInt c with
        | none =>
          rw [hc] at h0
          simp [optIntLe] at h0
        | some a => exact ⟨a, rfl⟩
      obtain ⟨v, hv⟩ : ∃ v, jsParseInt n = some v := by
        cases hn : jsParseInt n with
        | none =>
          rw [ha, hn] at h0
          simp [optIntLe] at h0
        | some v => exact ⟨v, rfl⟩
      have hab : a ≤ v := by
        rw [ha, hv] at h0
        simpa [optIntLe] using h0
      have hcw : isWildDigitL c = false := jsParseInt_some_not_wild c a ha
      have hnw : isWildDigitL n = false := jsParseInt_some_not_wild n v hv
      have hgt : optIntGt (jsParseInt c) (jsParseInt n) = false := by
        rw [ha, hv]
        simp only [optIntGt, decide_eq_false_iff_not, not_lt]
        exact hab
      have hrest : ∀ p ∈ cs.zip ns, optIntLe (jsParseInt p.1) (jsParseInt p.2) = true :=
        fun p hp => hle p (List.mem_cons_of_mem _ hp)
      have hmin : min (cs.length + 1) (ns.length + 1) = min cs.length ns.length + 1 := by
        omega
      by_cases hct : c = n
      · have hcmp : versionDigitComparisonL c n = 0 := by
          subst hct
          simp [versionDigitComparisonL, optIntGt_self]
        cases b with
        | false =>
          simp only [upgradeLoop, hcw, Bool.false_eq_true, if_false, hcmp]
          rw [ih ns false hrest]
          simp [hmin, hct]
        | true =>
          simp only [upgradeLoop, hcw, Bool.false_eq_true, if_false, hcmp]
          rw [ih ns true hrest]
          simp [hmin]
      · have hbeq : (c == n) = false := by simp [hct]
        have hcmp : versionDigitComparisonL c n = -1 := by
          simp [versionDigitComparisonL, hgt, hbeq, hcw, hnw]
        simp only [upgradeLoop, hcw, Bool.false_eq_true, if_false, hcmp]
        rw [ih ns true hrest]
        simp [hmin]

theorem toList_ne_nil (t : String) (h : t ≠ "") : t.toList ≠ [] := fun hl =>
  (string_ne_iff_toList_ne t "").1 h (by rw [hl]; rfl)

theorem upgradeDeclL_main (d T : List Char) (hT : T ≠ [])
    (hhead : (splitOnDot (strippedL d)).head? ≠ some []) :
    upgradeDeclL d T =
      getVersionConstraintsL d ++
        joinDot (upgradeLoop (splitOnDot (strippedL d)) (splitOnDot T) false) := by
  simp only [upgradeDeclL]
  rw [if_neg hT, if_neg hhead]

theorem upgradeDeclL_constraint_only (d T : List Char) (hT : T ≠ [])
    (hhead : (splitOnDot (strippedL d)).head? = some []) :
    upgradeDeclL d T = getVersionConstraintsL d := by
  simp only [upgradeDeclL]
  rw [if_neg hT, if_pos hhead]

theorem wfTargetL_ne_nil (T : List Char) (h : wfTargetL T = true) : T ≠ [] := by
  intro hnil
  subst hnil
  exact absurd h (by decide)

theorem wfTargetL_mem (T : List Char) (h : wfTargetL T = true) :
    ∀ p ∈ splitOnDot T, isNumericToken p = true := by
  intro p hp
  exact List.all_eq_true.1 h p hp

/-! ### Claim theorems -/

/-- Claim C1: for a declaration with no wildcard in its body and no
constraint prefix, if every component is numerically at most the
corresponding component of the (non-empty) target, the upgraded result is
the target truncated to the first `min(|d|, |t|)` components, rejoined with
dots. -/
theorem upgrade_no_constraint_le_truncates (d t : String)
    (hpfx : getVersionConstraints d = "")
    (_hnw : ∀ c ∈ splitOnDot d.toList, isWildDigitL c = false)
    (ht : t ≠ "")
    (hle : ∀ p ∈ (splitOnDot d.toList).zip (splitOnDot t.toList),
      optIntLe (jsParseInt p.1) (jsParseInt p.2) = true) :
    upgradeDependencyDeclaration d t =
      String.mk (joinDot ((splitOnDot t.toList).take
        (min (splitOnDot d.toList).length (splitOnDot t.toList).length))) := by
  have hpfxL : getVersionConstraintsL d.toList = [] := by
    have h := congrArg String.toList hpfx
    simpa using h
  have hTne : t.toList ≠ [] := toList_ne_nil t ht
  have hstr : strippedL d.toList = d.toList := by
    rw [strippedL, hpfxL]
    rfl
  cases hcs : splitOnDot d.toList with
  | nil => exact absurd hcs (splitOnDot_ne_nil _)
  | cons c0 cr =>
    cases hts : splitOnDot t.toList with
    | nil => exact absurd hts (splitOnDot_ne_nil _)
    | cons t0 tr =>
      have h00 : optIntLe (jsParseInt c0) (jsParseInt t0) = true := by
        apply hle (c0, t0)
        rw [hcs, hts]
        simp
      have hc0 : c0 ≠ [] := by
        intro hnil
        subst hnil
        rw [jsParseInt_nil] at h00
        cases hn : jsParseInt t0 <;> rw [hn] at h00 <;> simp [optIntLe] at h00
      have hhead : (splitOnDot (strippedL d.toList)).head? ≠ some [] := by
        rw [hstr, hcs]
        simp [hc0]
      unfold upgradeDependencyDeclaration
      rw [upgradeDeclL_main d.toList t.toList hTne hhead, hstr, hpfxL,
        upgradeLoop_take _ _ _ hle, List.nil_append, hcs, hts]

/-- Witness for C1 at the concrete input d = "1.2.0", t = "1.3.2". -/
theorem upgrade_no_constraint_le_truncates_witness :
    upgradeDependencyDeclaration "1.2.0" "1.3.2" =
      String.mk (joinDot ((splitOnDot "1.3.2".toList).take
        (min (splitOnDot "1.2.0".toList).length (splitOnDot "1.3.2".toList).length))) :=
  upgrade_no_constraint_le_truncates "1.2.0" "1.3.2" (by decide) (by decide)
    (by decide) (by decide)

/-- Claim C10: for a non-degenerate declaration body and a non-empty target,
the result is the constraint prefix plus the joined proposal, the proposal
has exactly `min(m, n)` components, and every proposal component is the
declaration's or the target's component at the same index. -/
theorem upgrade_components_invariant (d t : String)
    (ht : t ≠ "")
    (hhead : (splitOnDot (strippedL d.toList)).head? ≠ some []) :
    upgradeDependencyDeclaration d t =
      String.mk (getVersionConstraintsL d.toList ++
        joinDot (upgradeLoop (splitOnDot (strippedL d.toList)) (splitOnDot t.toList) false)) ∧
    (upgradeLoop (splitOnDot (strippedL d.toList)) (splitOnDot t.toList) false).length =
      min (splitOnDot (strippedL d.toList)).length (splitOnDot t.toList).length ∧
    ∀ i : Nat,
      (upgradeLoop (splitOnDot (strippedL d.toList)) (splitOnDot t.toList) false).get? i =
        (splitOnDot (strippedL d.toList)).get? i ∨
      (upgradeLoop (splitOnDot (strippedL d.toList)) (splitOnDot t.toList) false).get? i =
        (splitOnDot t.toList).get? i := by
  refine ⟨?_, upgradeLoop_length _ _ _, fun i => upgradeLoop_choice _ _ _ i⟩
  unfold upgradeDependencyDeclaration
  rw [upgradeDeclL_main d.toList t.toList (toList_ne_nil t ht) hhead]

/-- Witness for C10 at the concrete input d = "1.2", t = "1.3.0". -/
theorem upgrade_components_invariant_witness :
    upgradeDependencyDeclaration "1.2" "1.3.0" =
      String.mk (getVersionConstraintsL "1.2".toList ++
        joinDot (upgradeLoop (splitOnDot (strippedL "1.2".toList))
          (splitOnDot "1.3.0".toList) false)) ∧
    (upgradeLoop (splitOnDot (strippedL "1.2".toList))
        (splitOnDot "1.3.0".toList) false).length =
      min (splitOnDot (strippedL "1.2".toList)).length
        (splitOnDot "1.3.0".toList).length ∧
    ∀ i : Nat,
      (upgradeLoop (splitOnDot (strippedL "1.2".toList))
          (splitOnDot "1.3.0".toList) false).get? i =
        (splitOnDot (strippedL "1.2".toList)).get? i ∨
      (upgradeLoop (splitOnDot (strippedL "1.2".toList))
          (splitOnDot "1.3.0".toList) false).get? i =
        (splitOnDot "1.3.0".toList).get? i :=
  upgrade_components_invariant "1.2" "1.3.0" (by decide) (by decide)

/-- Counterexample to claim C3 as stated: the wildcard component of
"1.x" does not survive upgrading against the one-component target "2" —
the output is "2", in which no wildcard marker appears at all, because a
shorter target truncates the declaration before the wildcard is reached. -/
theorem wildcard_truncated_cex :
    upgradeDependencyDeclaration "1.x" "2" = "2" ∧
    (splitOnDot (strippedL "1.x".toList)).get? 1 = some ['x'] ∧
    'x' ∉ (upgradeDependencyDeclaration "1.x" "2").toList := by
  refine ⟨?_, ?_, ?_⟩ <;> decide

/-- Claim C3 as amended: a wildcard component of the declaration's body at a
position strictly below the target's component count is kept, as that exact
marker, at the same position of the proposed component list (positions at or
beyond the target's component count are truncated away). -/
theorem wildcard_preserved_within_target_length (d t : String) (i : Nat) (w : List Char)
    (ht : t ≠ "")
    (hhead : (splitOnDot (strippedL d.toList)).head? ≠ some [])
    (hi : i < (splitOnDot t.toList).length)
    (hw : (splitOnDot (strippedL d.toList)).get? i = some w)
    (hwild : isWildDigitL w = true) :
    upgradeDependencyDeclaration d t =
      String.mk (getVersionConstraintsL d.toList ++
        joinDot (upgradeLoop (splitOnDot (strippedL d.toList)) (splitOnDot t.toList) false)) ∧
    (upgradeLoop (splitOnDot (strippedL d.toList)) (splitOnDot t.toList) false).get? i =
      some w := by
  constructor
  · unfold upgradeDependencyDeclaration
    rw [upgradeDeclL_main d.toList t.toList (toList_ne_nil t ht) hhead]
  · exact upgradeLoop_wild _ _ _ i w hi hw hwild

/-- Witness for the amended C3 at d = "1.x.2", t = "2.0.0", position 1. -/
theorem wildcard_preserved_within_target_length_witness :
    upgradeDependencyDeclaration "1.x.2" "2.0.0" =
      String.mk (getVersionConstraintsL "1.x.2".toList ++
        joinDot (upgradeLoop (splitOnDot (strippedL "1.x.2".toList))
          (splitOnDot "2.0.0".toList) false)) ∧
    (upgradeLoop (splitOnDot (strippedL "1.x.2".toList))
        (splitOnDot "2.0.0".toList) false).get? 1 = some ['x'] :=
  wildcard_preserved_within_target_length "1.x.2" "2.0.0" 1 ['x'] (by decide)
    (by decide) (by decide) (by decide) (by decide)

/-- Counterexample to claim C6 as stated: the tokens "01" and "1" denote the
same base-10 integer, yet the comparator returns LESS (-1) rather than
EQUAL (0) — the textual-identity test runs before any numeric-equality
consideration, and distinct spellings of the same integer fall through to
the LESS branch. -/
theorem versionDigitComparison_equal_ints_cex :
    jsParseInt ("01" : String).toList = some 1 ∧
    jsParseInt ("1" : String).toList = some 1 ∧
    versionDigitComparison "01" "1" = -1 := by
  refine ⟨by decide, by decide, by decide⟩

/-- Claim C6 as amended: the comparator returns EQUAL (0) whenever either
token is a wildcard marker or the tokens are textually identical; otherwise,
for tokens that parse as integers, it returns GREATER (1) when d1's value is
higher and LESS (-1) in every other case — including when two textually
distinct tokens denote the same integer. -/
theorem versionDigitComparison_spec (d1 d2 : String) :
    ((isWildDigitL d1.toList = true ∨ isWildDigitL d2.toList = true ∨ d1 = d2) →
      versionDigitComparison d1 d2 = 0) ∧
    (∀ a b : Int, jsParseInt d1.toList = some a → jsParseInt d2.toList = some b →
      d1 ≠ d2 → versionDigitComparison d1 d2 = if a > b then 1 else -1) := by
  constructor
  · intro h
    unfold versionDigitComparison versionDigitComparisonL
    rcases h with h | h | h
    · rw [jsParseInt_wild _ h]
      have hgt : optIntGt none (jsParseInt d2.toList) = false := by
        cases jsParseInt d2.toList <;> rfl
      rw [hgt, if_neg Bool.false_ne_true, if_pos (by rw [h]; simp)]
    · rw [jsParseInt_wild _ h]
      have hgt : optIntGt (jsParseInt d1.toList) none = false := by
        cases jsParseInt d1.toList <;> rfl
      rw [hgt, if_neg Bool.false_ne_true, if_pos (by rw [h]; simp)]
    · subst h
      rw [optIntGt_self, if_neg Bool.false_ne_true, if_pos (by simp)]
  · intro a b ha hb hne
    unfold versionDigitComparison versionDigitComparisonL
    rw [ha, hb]
    have hw1 : isWildDigitL d1.toList = false := jsParseInt_some_not_wild _ a ha
    have hw2 : isWildDigitL d2.toList = false := jsParseInt_some_not_wild _ b hb
    have hbeq : (d1.toList == d2.toList) = false := by
      simp only [beq_eq_false_iff_ne, ne_eq]
      intro hl
      exact hne (by cases d1; cases d2; exact congrArg String.mk hl)
    by_cases hlt : a > b
    · have hgt : optIntGt (some a) (some b) = true := by
        simp [optIntGt, hlt]
      rw [hgt, if_pos rfl, if_pos hlt]
    · have hgt : optIntGt (some a) (some b) = false := by
        simp [optIntGt, hlt]
      have hcond : ((d1.toList == d2.toList || isWildDigitL d1.toList) ||
          isWildDigitL d2.toList) = false := by
        rw [hbeq, hw1, hw2]
        rfl
      rw [hgt, if_neg Bool.false_ne_true, hcond, if_neg Bool.false_ne_true,
        if_neg hlt]

/-- Witness for the amended C6 at d1 = "2", d2 = "3". -/
theorem versionDigitComparison_spec_witness :
    versionDigitComparison "2" "3" = if (2 : Int) > 3 then 1 else -1 :=
  (versionDigitComparison_spec "2" "3").2 2 3 (by decide) (by decide) (by decide)

/-- Counterexample to claim C7 as stated: a tab is a whitespace character
that is neither a digit nor a wildcard marker, so per the claim it should be
part of the constraint prefix of "\t1" — but the source's `isNaN` test is
false on a tab (JavaScript coerces it to 0), so the scan stops immediately
and the extracted prefix is empty. -/
theorem getVersionConstraints_tab_cex :
    Char.isDigit '\t' = false ∧ isWildChar '\t' = false ∧
    getVersionConstraints "\t1" = "" := by
  refine ⟨by decide, by decide, by decide⟩

/-- Claim C7 as amended: the constraint prefix is the longest prefix of
characters that are neither digits nor wildcard markers, where among
whitespace only the space character qualifies — any other whitespace
character (which JavaScript's number coercion does not map to NaN) stops the
scan exactly like a digit does. -/
theorem getVersionConstraints_takeWhile (d : String) :
    getVersionConstraints d = String.mk (d.toList.takeWhile
      (fun c => (!(c.isDigit || isJsWhitespace c) || c == ' ') &&
        !(c == 'x' || c == '*'))) := by
  unfold getVersionConstraints
  congr 1
  rw [gvcL_eq_takeWhile]
  have hp : constraintChar = (fun c => (!(c.isDigit || isJsWhitespace c) || c == ' ') &&
      !(c == 'x' || c == '*')) := by
    funext c
    simp [constraintChar, charIsNaN, isWildChar, Bool.not_or]
  rw [hp]

/-- Claim C4: the upgradeability predicate is true exactly when the range
validity check passes, the unconstrained body is non-empty, the target does
not already satisfy the unconstrained range, and the target is not behind
it; stated for every instantiation of the external `semver` operations, so
in particular an invalid range yields `false` rather than an error. -/
theorem isUpgradeable_characterization (vr : String → Bool)
    (sat lt : String → String → Bool) (current latest : String) :
    isUpgradeable vr sat lt current latest = true ↔
      (vr current = true ∧ String.mk (strippedL current.toList) ≠ "" ∧
       sat latest (String.mk (strippedL current.toList)) = false ∧
       lt latest (String.mk (strippedL current.toList)) = false) := by
  simp only [isUpgradeable]
  cases hvr : vr current
  · simp
  · rw [if_neg (by simp)]
    by_cases hu : String.mk (strippedL current.toList) = ""
    · simp [hu]
    · rw [if_neg hu]
      constructor
      · intro h
        have hsat : sat latest (String.mk (strippedL current.toList)) = false := by
          cases hs : sat latest (String.mk (strippedL current.toList))
          · rfl
          · rw [hs] at h
            simp at h
        have hlt : lt latest (String.mk (strippedL current.toList)) = false := by
          cases hl : lt latest (String.mk (strippedL current.toList))
          · rfl
          · rw [hl] at h
            simp at h
        exact ⟨rfl, hu, hsat, hlt⟩
      · rintro ⟨-, -, hsat, hlt⟩
        rw [hsat, hlt]
        rfl

/-- Witness for C4: a concrete oracle instantiation at current = "1.0",
latest = "2.0" on which the predicate is true. -/
theorem isUpgradeable_characterization_witness :
    isUpgradeable (fun _ => true) (fun _ _ => false) (fun _ _ => false)
      "1.0" "2.0" = true :=
  (isUpgradeable_characterization (fun _ => true) (fun _ _ => false)
    (fun _ _ => false) "1.0" "2.0").2 ⟨rfl, by decide, rfl, rfl⟩

/-- Claim C8: a constraint-only declaration (empty body after prefix
extraction) is returned unchanged by the upgrader, and is classified not
upgradeable — for every instantiation of the external `semver` operations,
since the empty-body check fires regardless of the validity oracle. -/
theorem constraint_only_noop (d t : String) (vr : String → Bool)
    (sat lt : String → String → Bool)
    (hbody : strippedL d.toList = [])
    (ht : t ≠ "") :
    upgradeDependencyDeclaration d t = d ∧ isUpgradeable vr sat lt d t = false := by
  constructor
  · unfold upgradeDependencyDeclaration
    rw [upgradeDeclL_constraint_only d.toList t.toList (toList_ne_nil t ht)
      (by rw [hbody]; rfl)]
    have hall : getVersionConstraintsL d.toList = d.toList := by
      rw [gvcL_eq_takeWhile]
      have h2 : d.toList.dropWhile constraintChar = [] := by
        rw [← strippedL_eq_dropWhile]
        exact hbody
      have h3 := takeWhile_append_dropWhile' constraintChar d.toList
      rw [h2, List.append_nil] at h3
      exact h3
    rw [hall]
    exact mk_toList d
  · simp only [isUpgradeable]
    cases hvr : vr d
    · rw [if_pos rfl]
    · rw [if_neg (by simp), hbody, if_pos rfl]

/-- Witness for C8 at d = ">=", t = "1.0.0" with a concrete oracle
instantiation. -/
theorem constraint_only_noop_witness :
    upgradeDependencyDeclaration ">=" "1.0.0" = ">=" ∧
    isUpgradeable (fun _ => true) (fun _ _ => false) (fun _ _ => false)
      ">=" "1.0.0" = false :=
  constraint_only_noop ">=" "1.0.0" (fun _ => true) (fun _ _ => false)
    (fun _ _ => false) (by decide) (by decide)

theorem zipWith_bump_idem (cs : List (List Char)) :
    ∀ ts, List.zipWith bumpComponent (List.zipWith bumpComponent cs ts) ts =
      List.zipWith bumpComponent cs ts := by
  induction cs with
  | nil => intro ts; simp
  | cons c cr ih =>
    intro ts
    cases ts with
    | nil => simp
    | cons t tr =>
      simp only [List.zipWith]
      rw [ih tr]
      congr 1
      by_cases hw : isWildDigitL c = true
      · simp [bumpComponent, hw]
      · have hw' : isWildDigitL c = false := by simpa using hw
        simp [bumpComponent, hw']

theorem zipWith_bump_no_dot (cs : List (List Char)) :
    ∀ ts, (∀ c ∈ cs, '.' ∉ c) → (∀ t ∈ ts, '.' ∉ t) →
    ∀ p ∈ List.zipWith bumpComponent cs ts, '.' ∉ p := by
  induction cs with
  | nil => intro ts _ _ p hp; simp at hp
  | cons c cr ih =>
    intro ts hcs hts p hp
    cases ts with
    | nil => simp at hp
    | cons t tr =>
      simp only [List.zipWith] at hp
      rcases List.mem_cons.1 hp with rfl | hp'
      · by_cases hw : isWildDigitL c = true
        · simpa [bumpComponent, hw] using hcs c (List.mem_cons_self _ _)
        · have hw' : isWildDigitL c = false := by simpa using hw
          simpa [bumpComponent, hw'] using hts t (List.mem_cons_self _ _)
      · exact ih tr (fun x hx => hcs x (List.mem_cons_of_mem _ hx))
          (fun x hx => hts x (List.mem_cons_of_mem _ hx)) p hp'

theorem joinDot_cons (x : List Char) (xs : List (List Char)) :
    ∃ r, joinDot (x :: xs) = x ++ r := by
  cases xs with
  | nil => exact ⟨[], by simp [joinDot]⟩
  | cons y ys => exact ⟨'.' :: joinDot (y :: ys), rfl⟩

theorem numeric_head (t : List Char) (h : isNumericToken t = true) :
    ∃ c cs, t = c :: cs ∧ Char.isDigit c = true := by
  cases t with
  | nil => exact absurd h (by decide)
  | cons c cs => exact ⟨c, cs, rfl, numeric_mem_digit _ h c (List.mem_cons_self _ _)⟩

theorem wild_head (w : List Char) (h : isWildDigitL w = true) :
    ∃ c, w = [c] ∧ isWildChar c = true := by
  simp only [isWildDigitL, Bool.or_eq_true, beq_iff_eq] at h
  rcases h with rfl | rfl
  · exact ⟨'x', rfl, by decide⟩
  · exact ⟨'*', rfl, by decide⟩

theorem bump_head_not_constraint (c0 t0 : List Char) (hc0 : c0 ≠ [])
    (ht0 : isNumericToken t0 = true) :
    ∃ h0 hr, bumpComponent c0 t0 = h0 :: hr ∧ constraintChar h0 = false := by
  by_cases hw : isWildDigitL c0 = true
  · obtain ⟨c, rfl, hwc⟩ := wild_head c0 hw
    exact ⟨c, [], by simp [bumpComponent, hw], wild_constraintChar_false c hwc⟩
  · have hw' : isWildDigitL c0 = false := by simpa using hw
    obtain ⟨h0, hr, rfl, hd⟩ := numeric_head t0 ht0
    exact ⟨h0, hr, by simp [bumpComponent, hw'], digit_constraintChar_false h0 hd⟩

theorem gvcL_all_constraint (L : List Char) :
    ∀ c ∈ getVersionConstraintsL L, constraintChar c = true := by
  rw [gvcL_eq_takeWhile]
  exact mem_takeWhile_satisfies _ _

theorem prefix_body_of_append (P J : List Char) (h0 : Char) (hr : List Char)
    (hall : ∀ c ∈ P, constraintChar c = true)
    (hJ : J = h0 :: hr) (hfail : constraintChar h0 = false) :
    getVersionConstraintsL (P ++ J) = P ∧ strippedL (P ++ J) = J := by
  constructor
  · rw [gvcL_eq_takeWhile, takeWhile_append_of_all _ _ _ hall, hJ]
    simp [List.takeWhile, hfail]
  · rw [strippedL_eq_dropWhile, dropWhile_append_of_all _ _ _ hall, hJ]
    simp [List.dropWhile, hfail]

/-- Claim C2: the declaration upgrader is idempotent — upgrading the result
again against the same target version (a well-formed dotted-integer target,
per the spec's data model) returns the same string. -/
theorem upgrade_idempotent (d t : String) (hwf : wfTargetL t.toList = true) :
    upgradeDependencyDeclaration (upgradeDependencyDeclaration d t) t =
      upgradeDependencyDeclaration d t := by
  have hT : t.toList ≠ [] := wfTargetL_ne_nil _ hwf
  have htsnum : ∀ p ∈ splitOnDot t.toList, isNumericToken p = true :=
    wfTargetL_mem _ hwf
  by_cases hhead : (splitOnDot (strippedL d.toList)).head? = some []
  · unfold upgradeDependencyDeclaration
    rw [upgradeDeclL_constraint_only _ _ hT hhead, toList_mk]
    congr 1
    have hall := gvcL_all_constraint d.toList
    have hstr2 : strippedL (getVersionConstraintsL d.toList) = [] := by
      rw [strippedL_eq_dropWhile]
      exact dropWhile_eq_nil_of_all _ _ hall
    rw [upgradeDeclL_constraint_only _ _ hT (by rw [hstr2]; rfl),
      gvcL_eq_takeWhile (getVersionConstraintsL d.toList)]
    exact takeWhile_eq_self_of_all _ _ hall
  · have hEq : upgradeDeclL d.toList t.toList =
        getVersionConstraintsL d.toList ++
          joinDot (List.zipWith bumpComponent (splitOnDot (strippedL d.toList))
            (splitOnDot t.toList)) := by
      rw [upgradeDeclL_main _ _ hT hhead, upgradeLoop_eq_zipWith _ _ _ htsnum]
    obtain ⟨c0, cr, hcs⟩ : ∃ c0 cr, splitOnDot (strippedL d.toList) = c0 :: cr := by
      cases h : splitOnDot (strippedL d.toList) with
      | nil => exact absurd h (splitOnDot_ne_nil _)
      | cons a b => exact ⟨a, b, rfl⟩
    have hc0ne : c0 ≠ [] := by
      intro h0
      apply hhead
      rw [hcs, h0]
      rfl
    obtain ⟨t0, tr, hts⟩ : ∃ t0 tr, splitOnDot t.toList = t0 :: tr := by
      cases h : splitOnDot t.toList with
      | nil => exact absurd h (splitOnDot_ne_nil _)
      | cons a b => exact ⟨a, b, rfl⟩
    have ht0 : isNumericToken t0 = true := htsnum t0 (hts ▸ List.mem_cons_self _ _)
    obtain ⟨h0, hr, hbump, hfail⟩ := bump_head_not_constraint c0 t0 hc0ne ht0
    have hpscons : List.zipWith bumpComponent (splitOnDot (strippedL d.toList))
        (splitOnDot t.toList) = bumpComponent c0 t0 :: List.zipWith bumpComponent cr tr := by
      rw [hcs, hts]
      rfl
    obtain ⟨r, hjoin⟩ := joinDot_cons (bumpComponent c0 t0)
      (List.zipWith bumpComponent cr tr)
    have hJcons : joinDot (List.zipWith bumpComponent (splitOnDot (strippedL d.toList))
        (splitOnDot t.toList)) = h0 :: (hr ++ r) := by
      rw [hpscons, hjoin, hbump]
      rfl
    obtain ⟨hgvcU, hstrU⟩ := prefix_body_of_append (getVersionConstraintsL d.toList)
      _ h0 (hr ++ r) (gvcL_all_constraint d.toList) hJcons hfail
    have hdotfree : ∀ p ∈ List.zipWith bumpComponent (splitOnDot (strippedL d.toList))
        (splitOnDot t.toList), '.' ∉ p :=
      zipWith_bump_no_dot _ _ (dot_not_mem_splitOnDot _) (dot_not_mem_splitOnDot _)
    have hsplitU : splitOnDot (joinDot (List.zipWith bumpComponent
        (splitOnDot (strippedL d.toList)) (splitOnDot t.toList))) =
        List.zipWith bumpComponent (splitOnDot (strippedL d.toList))
          (splitOnDot t.toList) :=
      splitOnDot_joinDot _ (by rw [hpscons]; simp) hdotfree
    unfold upgradeDependencyDeclaration
    rw [hEq, toList_mk]
    congr 1
    have hheadU : (splitOnDot (strippedL (getVersionConstraintsL d.toList ++
        joinDot (List.zipWith bumpComponent (splitOnDot (strippedL d.toList))
          (splitOnDot t.toList))))).head? ≠ some [] := by
      rw [hstrU, hsplitU, hpscons]
      intro hcontra
      rw [hbump] at hcontra
      simp at hcontra
    rw [upgradeDeclL_main _ _ hT hheadU, hstrU, hsplitU,
      upgradeLoop_eq_zipWith _ _ _ htsnum, zipWith_bump_idem, hgvcU]

/-- Witness for C2 at d = "1.2.x", t = "1.3.2". -/
theorem upgrade_idempotent_witness :
    upgradeDependencyDeclaration (upgradeDependencyDeclaration "1.2.x" "1.3.2") "1.3.2" =
      upgradeDependencyDeclaration "1.2.x" "1.3.2" :=
  upgrade_idempotent "1.2.x" "1.3.2" (by decide)

theorem append_cancel_left' (a b c : List Char) (h : a ++ b = a ++ c) : b = c := by
  induction a with
  | nil => simpa using h
  | cons x xs ih =>
    simp only [List.cons_append, List.cons.injEq] at h
    exact ih h.2

theorem lookup_mem (k : String) (l : List (String × String)) (v : String)
    (h : List.lookup k l = some v) : (k, v) ∈ l := by
  induction l with
  | nil => exact absurd h (by simp)
  | cons p ps ih =>
    obtain ⟨pk, pv⟩ := p
    rw [List.lookup] at h
    cases hk : k == pk
    · rw [hk] at h
      exact List.mem_cons_of_mem _ (ih h)
    · rw [hk] at h
      have hv : pv = v := by
        injection h
      have hkk : k = pk := beq_iff_eq.1 hk
      rw [← hv, hkk]
      exact List.mem_cons_self _ _

theorem specIsUpgradeable_true_elim (c ℓ : String)
    (h : specIsUpgradeable c ℓ = true) :
    specValidRange c = true ∧ String.mk (strippedL c.toList) ≠ "" ∧
    specSatisfies ℓ (String.mk (strippedL c.toList)) = false := by
  have h' : isUpgradeable specValidRange specSatisfies specLtr c ℓ = true := h
  simp only [isUpgradeable] at h'
  cases hvr : specValidRange c
  · rw [hvr] at h'
    simp at h'
  · rw [hvr, if_neg (by simp)] at h'
    by_cases hu : String.mk (strippedL c.toList) = ""
    · rw [if_pos hu] at h'
      exact absurd h' (by simp)
    · rw [if_neg hu] at h'
      refine ⟨rfl, hu, ?_⟩
      cases hs : specSatisfies ℓ (String.mk (strippedL c.toList))
      · rfl
      · rw [hs] at h'
        simp at h'

theorem zipWith_bump_fixed_satisfies (cs : List (List Char)) :
    ∀ ts, (∀ c ∈ cs, (isNumericToken c || isWildDigitL c) = true) →
    List.zipWith bumpComponent cs ts = cs →
    specSatisfiesAux cs ts = true := by
  induction cs with
  | nil => intro ts _ _; rfl
  | cons c cr ih =>
    intro ts hcs hfix
    cases ts with
    | nil => simp at hfix
    | cons t tr =>
      simp only [List.zipWith, List.cons.injEq] at hfix
      obtain ⟨h1, h2⟩ := hfix
      have hcr := ih tr (fun x hx => hcs x (List.mem_cons_of_mem _ hx)) h2
      simp only [specSatisfiesAux]
      by_cases hw : isWildDigitL c = true
      · simp [hw, hcr]
      · have hw' : isWildDigitL c = false := by simpa using hw
        have hnum : isNumericToken c = true := by
          have hh := hcs c (List.mem_cons_self _ _)
          rw [hw'] at hh
          simpa using hh
        have hct : t = c := by simpa [bumpComponent, hw'] using h1
        subst hct
        simp [hw', hnum, hcr]

theorem spec_upgrade_changes (c ℓ : String) (hwf : wfTargetL ℓ.toList = true)
    (hup : specIsUpgradeable c ℓ = true) :
    upgradeDependencyDeclaration c ℓ ≠ c := by
  obtain ⟨hvr, hbody, hsat⟩ := specIsUpgradeable_true_elim c ℓ hup
  have hT : ℓ.toList ≠ [] := wfTargetL_ne_nil _ hwf
  have htsnum : ∀ p ∈ splitOnDot ℓ.toList, isNumericToken p = true :=
    wfTargetL_mem _ hwf
  have hcsok : ∀ p ∈ splitOnDot (strippedL c.toList),
      (isNumericToken p || isWildDigitL p) = true := by
    intro p hp
    have hvr' : (splitOnDot (strippedL c.toList)).all
        (fun x => isNumericToken x || isWildDigitL x) = true := hvr
    exact List.all_eq_true.1 hvr' p hp
  obtain ⟨c0, cr, hcs⟩ : ∃ c0 cr, splitOnDot (strippedL c.toList) = c0 :: cr := by
    cases h : splitOnDot (strippedL c.toList) with
    | nil => exact absurd h (splitOnDot_ne_nil _)
    | cons a b => exact ⟨a, b, rfl⟩
  have hc0ne : c0 ≠ [] := by
    intro h0
    have hh := hcsok c0 (hcs ▸ List.mem_cons_self _ _)
    rw [h0] at hh
    exact absurd hh (by decide)
  have hhead : (splitOnDot (strippedL c.toList)).head? ≠ some [] := by
    rw [hcs]
    simp [hc0ne]
  obtain ⟨t0, tr, hts⟩ : ∃ t0 tr, splitOnDot ℓ.toList = t0 :: tr := by
    cases h : splitOnDot ℓ.toList with
    | nil => exact absurd h (splitOnDot_ne_nil _)
    | cons a b => exact ⟨a, b, rfl⟩
  have hEq : upgradeDeclL c.toList ℓ.toList =
      getVersionConstraintsL c.toList ++
        joinDot (List.zipWith bumpComponent (splitOnDot (strippedL c.toList))
          (splitOnDot ℓ.toList)) := by
    rw [upgradeDeclL_main _ _ hT hhead, upgradeLoop_eq_zipWith _ _ _ htsnum]
  intro hfixstring
  have hlist : upgradeDeclL c.toList ℓ.toList = c.toList :=
    congrArg String.toList hfixstring
  rw [hEq] at hlist
  have hsplit : getVersionConstraintsL c.toList ++ strippedL c.toList = c.toList := by
    rw [gvcL_eq_takeWhile, strippedL_eq_dropWhile]
    exact takeWhile_append_dropWhile' _ _
  have hlist2 : getVersionConstraintsL c.toList ++
      joinDot (List.zipWith bumpComponent (splitOnDot (strippedL c.toList))
        (splitOnDot ℓ.toList)) =
      getVersionConstraintsL c.toList ++ strippedL c.toList :=
    hlist.trans hsplit.symm
  have hJ : joinDot (List.zipWith bumpComponent (splitOnDot (strippedL c.toList))
      (splitOnDot ℓ.toList)) = strippedL c.toList :=
    append_cancel_left' _ _ _ hlist2
  have hdotfree : ∀ p ∈ List.zipWith bumpComponent (splitOnDot (strippedL c.toList))
      (splitOnDot ℓ.toList), '.' ∉ p :=
    zipWith_bump_no_dot _ _ (dot_not_mem_splitOnDot _) (dot_not_mem_splitOnDot _)
  have hpsne : List.zipWith bumpComponent (splitOnDot (strippedL c.toList))
      (splitOnDot ℓ.toList) ≠ [] := by
    rw [hcs, hts]
    simp
  have hps_eq : List.zipWith bumpComponent (splitOnDot (strippedL c.toList))
      (splitOnDot ℓ.toList) = splitOnDot (strippedL c.toList) := by
    have hcongr := congrArg splitOnDot hJ
    rw [splitOnDot_joinDot _ hpsne hdotfree] at hcongr
    exact hcongr
  have hsat_true : specSatisfies ℓ (String.mk (strippedL c.toList)) = true := by
    have haux : specSatisfiesAux (splitOnDot (strippedL c.toList))
        (splitOnDot ℓ.toList) = true :=
      zipWith_bump_fixed_satisfies _ _ hcsok hps_eq
    have : specSatisfiesAux (splitOnDot (String.mk (strippedL c.toList)).toList)
        (splitOnDot ℓ.toList) = true := by
      rw [toList_mk]
      exact haux
    exact this
  rw [hsat_true] at hsat
  exact Bool.noConfusion hsat

/-- Claim C5: the result of `upgradeDependencies` contains exactly the
(name, upgraded declaration) pairs for names of `currentDependencies` whose
latest version is present and upgradeable; names absent from
`latestVersions` or failing the predicate are omitted, and every entry
differs from its current declaration.  Latest versions are assumed
well-formed dotted-integer targets, per the spec's data model. -/
theorem upgradeDependencies_characterization
    (cur latest : List (String × String))
    (hwf : ∀ p ∈ latest, wfTargetL p.2.toList = true)
    (name v : String) :
    (name, v) ∈ upgradeDependencies cur latest ↔
      ∃ c ℓ, (name, c) ∈ cur ∧ List.lookup name latest = some ℓ ∧
        specIsUpgradeable c ℓ = true ∧
        v = upgradeDependencyDeclaration c ℓ ∧ v ≠ c := by
  unfold upgradeDependencies
  constructor
  · intro h
    obtain ⟨p, hpfilter, hpeq⟩ := List.mem_map.1 h
    obtain ⟨hpcur, hpg⟩ := List.mem_filter.1 hpfilter
    obtain ⟨pk, pc⟩ := p
    have hpg' : (match List.lookup pk latest with
        | some latestv => specIsUpgradeable pc latestv
        | none => false) = true := hpg
    cases hlook : List.lookup pk latest with
    | none =>
      rw [hlook] at hpg'
      exact absurd hpg' (by simp)
    | some ℓ =>
      rw [hlook] at hpg'
      have hpeq' : (pk, (match List.lookup pk latest with
          | some latestv => upgradeDependencyDeclaration pc latestv
          | none => pc)) = (name, v) := hpeq
      rw [hlook] at hpeq'
      have h1 : pk = name := congrArg Prod.fst hpeq'
      have h2 : upgradeDependencyDeclaration pc ℓ = v := congrArg Prod.snd hpeq'
      subst h1
      subst h2
      refine ⟨pc, ℓ, hpcur, hlook, hpg', rfl, ?_⟩
      exact spec_upgrade_changes pc ℓ (hwf (pk, ℓ) (lookup_mem _ _ _ hlook)) hpg'
  · rintro ⟨c, ℓ, hc, hlook, hup, rfl, hne⟩
    apply List.mem_map.2
    refine ⟨(name, c), ?_, ?_⟩
    · apply List.mem_filter.2
      refine ⟨hc, ?_⟩
      show (match List.lookup name latest with
        | some latestv => specIsUpgradeable c latestv
        | none => false) = true
      rw [hlook]
      exact hup
    · show (name, (match List.lookup name latest with
        | some latestv => upgradeDependencyDeclaration c latestv
        | none => c)) = (name, upgradeDependencyDeclaration c ℓ)
      rw [hlook]

/-- Witness for C5: the dependency "a" at "1.0.0" with latest "1.2.3" is
present in the result, mapped to "1.2.3". -/
theorem upgradeDependencies_characterization_witness :
    ("a", "1.2.3") ∈ upgradeDependencies [("a", "1.0.0")] [("a", "1.2.3")] :=
  (upgradeDependencies_characterization [("a", "1.0.0")] [("a", "1.2.3")]
      (by decide) "a" "1.2.3").2
    ⟨"1.0.0", "1.2.3", by decide, by decide, by decide, by decide, by decide⟩

theorem replaceAllAux_no_match (name old repl : List Char) :
    ∀ (fuel : Nat) (s : List Char), hasMatch name old s = false →
    replaceAllAux name old repl fuel s = s := by
  intro fuel
  induction fuel with
  | zero => intro s _; rfl
  | succ n ih =>
    intro s hs
    cases s with
    | nil => rfl
    | cons c cs =>
      have hm : matchPat name old (c :: cs) = none := by
        cases hmp : matchPat name old (c :: cs)
        · rfl
        · rw [hasMatch, hmp] at hs
          simp at hs
      have hcs : hasMatch name old cs = false := by
        rw [hasMatch] at hs
        cases h2 : hasMatch name old cs
        · rfl
        · rw [h2] at hs
          simp at hs
      simp only [replaceAllAux, hm]
      rw [ih cs hcs]

theorem expectChar_some (c : Char) (s r : List Char)
    (h : expectChar c s = some r) : s.length = r.length + 1 := by
  cases s with
  | nil => exact absurd h (by simp [expectChar])
  | cons x xs =>
    simp only [expectChar] at h
    by_cases hx : x = c
    · rw [if_pos hx] at h
      injection h with h'
      rw [← h']
      rfl
    · rw [if_neg hx] at h
      exact absurd h (by simp)

theorem dropWhile_length_le (p : Char → Bool) (l : List Char) :
    (l.dropWhile p).length ≤ l.length := by
  induction l with
  | nil => exact Nat.le_refl _
  | cons c cs ih =>
    cases h : p c
    · simp [List.dropWhile, h]
    · simp only [List.dropWhile, h]
      exact Nat.le_trans ih (Nat.le_succ _)

theorem matchPat_consumes (name old s tail : List Char)
    (h : matchPat name old s = some tail) : tail.length < s.length := by
  unfold matchPat at h
  cases h0 : expectChar '"' s with
  | none =>
    rw [h0] at h
    exact absurd h (by simp)
  | some s0 =>
    rw [h0] at h
    dsimp only at h
    have hs0 : s.length = s0.length + 1 := expectChar_some _ _ _ h0
    by_cases hn : nameMatches name (s0.take name.length) = true
    · rw [if_pos hn] at h
      cases h1 : expectChar '"' (s0.drop name.length) with
      | none =>
        rw [h1] at h
        exact absurd h (by simp)
      | some s1 =>
        rw [h1] at h
        dsimp only at h
        have hs1 : (s0.drop name.length).length = s1.length + 1 :=
          expectChar_some _ _ _ h1
        cases h2 : expectChar ':' (s1.dropWhile isJsWhitespace) with
        | none =>
          rw [h2] at h
          exact absurd h (by simp)
        | some s3 =>
          rw [h2] at h
          dsimp only at h
          have hs2 : (s1.dropWhile isJsWhitespace).length = s3.length + 1 :=
            expectChar_some _ _ _ h2
          by_cases hp : (s3.dropWhile isJsWhitespace).take
              ('"' :: old ++ ['"']).length = '"' :: old ++ ['"']
          · rw [if_pos hp] at h
            injection h with h'
            have hd : tail.length ≤ (s3.dropWhile isJsWhitespace).length := by
              rw [← h', List.length_drop]
              omega
            have hws1 : (s1.dropWhile isJsWhitespace).length ≤ s1.length :=
              dropWhile_length_le _ _
            have hws3 : (s3.dropWhile isJsWhitespace).length ≤ s3.length :=
              dropWhile_length_le _ _
            have hdrop : (s0.drop name.length).length ≤ s0.length := by
              rw [List.length_drop]
              omega
            omega
          · rw [if_neg hp] at h
            exact absurd h (by simp)
    · rw [if_neg hn] at h
      exact absurd h (by simp)

theorem replaceAllAux_congr (name old repl : List Char) :
    ∀ (f1 f2 : Nat) (s : List Char), s.length ≤ f1 → s.length ≤ f2 →
    replaceAllAux name old repl f1 s = replaceAllAux name old repl f2 s := by
  intro f1
  induction f1 with
  | zero =>
    intro f2 s h1 _
    have hs : s = [] := List.length_eq_zero.1 (Nat.le_zero.1 h1)
    subst hs
    cases f2 <;> rfl
  | succ n ih =>
    intro f2 s h1 h2
    cases s with
    | nil => cases f2 <;> rfl
    | cons c cs =>
      cases f2 with
      | zero => simp at h2
      | succ k =>
        have hl1 : cs.length + 1 ≤ n + 1 := by simpa using h1
        have hl2 : cs.length + 1 ≤ k + 1 := by simpa using h2
        cases hm : matchPat name old (c :: cs) with
        | some rest =>
          have hr : rest.length < cs.length + 1 := by
            simpa using matchPat_consumes _ _ _ _ hm
          simp only [replaceAllAux, hm]
          rw [ih k rest (by omega) (by omega)]
        | none =>
          simp only [replaceAllAux, hm]
          rw [ih k cs (by omega) (by omega)]

theorem replaceAllL_match_head (name old repl s tail : List Char)
    (hm : matchPat name old s = some tail) :
    replaceAllL name old repl s = repl ++ replaceAllL name old repl tail := by
  cases s with
  | nil => exact absurd hm (by simp [matchPat, expectChar])
  | cons c cs =>
    have hlt : tail.length < cs.length + 1 := by
      simpa using matchPat_consumes _ _ _ _ hm
    unfold replaceAllL
    simp only [List.length_cons, replaceAllAux, hm]
    rw [replaceAllAux_congr name old repl cs.length tail.length tail
      (by omega) (le_refl _)]

theorem replaceAllL_no_match_head (name old repl : List Char) (c : Char)
    (cs : List Char) (hm : matchPat name old (c :: cs) = none) :
    replaceAllL name old repl (c :: cs) = c :: replaceAllL name old repl cs := by
  unfold replaceAllL
  simp only [List.length_cons, replaceAllAux, hm]

theorem replaceAllL_step (name old repl : List Char) :
    ∀ (pre rest tail : List Char),
    (∀ i, i < pre.length → matchPat name old ((pre ++ rest).drop i) = none) →
    matchPat name old rest = some tail →
    replaceAllL name old repl (pre ++ rest) =
      pre ++ repl ++ replaceAllL name old repl tail := by
  intro pre
  induction pre with
  | nil =>
    intro rest tail _ hm
    simpa using replaceAllL_match_head name old repl rest tail hm
  | cons c pre' ih =>
    intro rest tail hpre hm
    have h0 : matchPat name old ((c :: pre') ++ rest) = none := by
      simpa using hpre 0 (by simp)
    have hstep := replaceAllL_no_match_head name old repl c (pre' ++ rest)
      (by simpa using h0)
    have hshift : ∀ i, i < pre'.length →
        matchPat name old ((pre' ++ rest).drop i) = none := by
      intro i hi
      have := hpre (i + 1) (by simp; omega)
      simpa using this
    rw [List.cons_append, hstep, ih rest tail hshift hm]
    simp

/-- Counterexample to claim C9 as stated, on two counts.  First, the
manifest text `"a" : "1.0.0"` has whitespace around the colon, so per the
claim the entry should be left unmodified — but the source's pattern is
`"<name>"\s*:\s*"<old>"`, which matches whitespace variation around the
colon and rewrites the text, normalising the separator to `": "`.  Second,
the pattern is not literal in the name: the source interpolates the name
unescaped, so for the real npm name `socket.io` the `.` is a regex wildcard
and the text `"socketXio" : "1.0.0"` — in which the pattern does not occur
verbatim — is rewritten to `"socket.io": "2.0.0"`. -/
theorem updatePackageData_ws_cex :
    updatePackageData "\"a\" : \"1.0.0\"" [("a", "1.0.0")] [("a", "2.0.0")] =
      "\"a\": \"2.0.0\"" ∧
    ("\"a\": \"2.0.0\"" : String) ≠ "\"a\" : \"1.0.0\"" ∧
    updatePackageData "\"socketXio\" : \"1.0.0\"" [("socket.io", "1.0.0")]
      [("socket.io", "2.0.0")] = "\"socket.io\": \"2.0.0\"" := by
  refine ⟨by decide, by decide, by decide⟩

/-- Claim C9 as amended: `updatePackageData` processes the entries of
`newDependencies` sequentially; each entry makes one left-to-right pass over
the text replacing every non-overlapping occurrence of `"<name>"` + optional
whitespace + `:` + optional whitespace + `"<oldDeclaration>"` — the old
declaration matched literally (it is escaped in the source), the name
matched as unescaped regex source — with `"<name>": "<newDeclaration>"`,
normalising the separator to colon-space; text in which the pattern occurs
nowhere is left entirely unchanged by that entry.  The three conjuncts state:
(i) the function is the sequential fold of the per-entry passes, (ii) when
the pattern first matches after a prefix `pre` (no match starts inside
`pre`), the pass keeps `pre`, emits the normalised replacement, and
continues after the matched text, and (iii) when the pattern matches
nowhere, the pass returns the text unchanged. -/
theorem updatePackageData_spec (data : String)
    (oldDependencies newDependencies : List (String × String))
    (name oldDecl newDecl : String) (pre rest tail : List Char) :
    (updatePackageData data oldDependencies newDependencies =
      newDependencies.foldl (applyEntry oldDependencies) data) ∧
    ((∀ i, i < pre.length →
        matchPat name.toList oldDecl.toList ((pre ++ rest).drop i) = none) →
      matchPat name.toList oldDecl.toList rest = some tail →
      List.lookup name oldDependencies = some oldDecl →
      applyEntry oldDependencies (String.mk (pre ++ rest)) (name, newDecl) =
        String.mk (pre ++ entryReplacement name.toList newDecl.toList ++
          replaceAllL name.toList oldDecl.toList
            (entryReplacement name.toList newDecl.toList) tail)) ∧
    (hasMatch name.toList oldDecl.toList data.toList = false →
      List.lookup name oldDependencies = some oldDecl →
      applyEntry oldDependencies data (name, newDecl) = data) := by
  refine ⟨rfl, ?_, ?_⟩
  · intro hpre hm hlook
    have ho : entryOld oldDependencies name = oldDecl := by
      unfold entryOld
      rw [hlook]
    simp only [applyEntry, ho, toList_mk]
    rw [replaceAllL_step _ _ _ pre rest tail hpre hm]
  · intro hnm hlook
    have ho : entryOld oldDependencies name = oldDecl := by
      unfold entryOld
      rw [hlook]
    simp only [applyEntry, ho]
    unfold replaceAllL
    rw [replaceAllAux_no_match _ _ _ _ _ hnm]
    exact mk_toList data

/-- Witness for the amended C9: a concrete text `x "a" : "1.0.0" z` in which
the pattern matches after the two-character prefix `x ` — the pass keeps the
prefix, normalises the entry, and continues after the match; and a concrete
no-occurrence text returned unchanged. -/
theorem updatePackageData_spec_witness :
    (applyEntry [("a", "1.0.0")]
        (String.mk ("x ".toList ++ "\"a\" : \"1.0.0\" z".toList)) ("a", "2.0.0") =
      String.mk ("x ".toList ++ entryReplacement "a".toList "2.0.0".toList ++
        replaceAllL "a".toList "1.0.0".toList
          (entryReplacement "a".toList "2.0.0".toList) " z".toList)) ∧
    (applyEntry [("a", "1.0.0")] "nothing to see" ("a", "2.0.0") =
      "nothing to see") :=
  ⟨(updatePackageData_spec "" [("a", "1.0.0")] [] "a" "1.0.0" "2.0.0"
      "x ".toList "\"a\" : \"1.0.0\" z".toList " z".toList).2.1
    (by decide) (by decide) (by decide),
   (updatePackageData_spec "nothing to see" [("a", "1.0.0")] [] "a" "1.0.0"
      "2.0.0" [] [] []).2.2 (by decide) (by decide)⟩

end VersionManager
